import Mathlib

/-! # Bit masks for fixed-width unsigned integers (`mask.h`)

A shallow embedding of the header `mask.h`.  A value of an unsigned integer
type `T` is a natural number below `2 ^ (sizeof(T) * 8)`.  Every C++
expression is embedded by the value it has once it is stored back into `T`:
the operands are widened (integral promotion to `int` for the narrow types),
the operator is applied on the widened values, and the result is converted to
`T`, that is, reduced modulo `2 ^ (sizeof(T) * 8)`.  A `static_assert` is a
guard whose failure yields no value (`Option.none`).
-/

namespace mask

/-! ## Data model -/

/-- The unsigned integer types the templates are instantiated with. -/
inductive UType
  | uint8_t
  | uint16_t
  | uint32_t
  | uint64_t
  deriving DecidableEq

/-- The size of `T` in bytes, `sizeof(T)`. -/
def sizeof : UType → Nat
  | .uint8_t => 1
  | .uint16_t => 2
  | .uint32_t => 4
  | .uint64_t => 8

/-- The element width `W = sizeof(T) * 8`. -/
def bits (T : UType) : Nat := sizeof T * 8

/-- Conversion of an integer value to the unsigned type `T`
(`static_cast<T>(x)`, `(T)x`, or the implicit conversion of an initialiser):
the value modulo `2 ^ W`. -/
def static_cast (T : UType) (x : Int) : Nat := (x % 2 ^ (sizeof T * 8)).toNat

/-- Storing the non-negative result of an expression into a variable of type
`T` keeps its `W` low bits. -/
def wrap (T : UType) (x : Nat) : Nat := x % 2 ^ (sizeof T * 8)

/-- The operator `~` on a (promoted) two's complement integer. -/
def compl (x : Int) : Int := -x - 1

/-- Subtraction on `unsigned long` (64 bits): the difference modulo `2 ^ 64`. -/
def ulong_sub (a b : Nat) : Nat := (((a : Int) - (b : Int)) % 2 ^ 64).toNat

/-! ## `namespace detail` -/

/-- The loop body of `make_up_to`: `value |= value << 1`.  For `uint8_t` and
`uint16_t` both operators act on the promoted `int` operands, where the shift
cannot overflow, and the assignment reduces the result modulo `2 ^ W`; for
`uint32_t` and `uint64_t` the shift is itself reduced modulo `2 ^ W`, which
leaves the same `W` low bits (`up_step_shift_in_T`). -/
def up_step (T : UType) (value : Nat) : Nat := wrap T (value ||| (value <<< 1))

/-- The loop body of `make_down_to`: `value |= value >> 1`; a right shift of
a non-negative value is the same on the promoted type and on `T`. -/
def down_step (T : UType) (value : Nat) : Nat := wrap T (value ||| (value >>> 1))

/-- The function `detail::make_up_to<T>(bit)`: `value = 1`, then `bit`
iterations of `value |= value << 1`. -/
def make_up_to (T : UType) (bit : Nat) : Nat :=
  (up_step T)^[bit] (static_cast T 1)

/-- The function `detail::make_down_to<T>(bit)`: `value` starts as the msb,
`count = (sizeof(T) * 8 - 1) - bit` is computed on `unsigned long`, then
`count` iterations of `value |= value >> 1`. -/
def make_down_to (T : UType) (bit : Nat) : Nat :=
  let value := wrap T (static_cast T 1 <<< (sizeof T * 8 - 1))
  let count := ulong_sub (sizeof T * 8 - 1) bit
  (down_step T)^[count] value

/-- The function `detail::make_from_to<T>(n1, n2)`. -/
def make_from_to (T : UType) (n1 n2 : Nat) : Nat :=
  make_up_to T n2 &&& make_down_to T n1

/-! ## Primitive masks -/

/-- The constant `all_v<T>`, initialised by `static_cast<T>(~0)`. -/
def all_v (T : UType) : Nat := static_cast T (compl 0)

/-- The constant `none_v<T>`, initialised by `0`. -/
def none_v (T : UType) : Nat := static_cast T 0

/-- The constant `msb_v<T>`, initialised by
`static_cast<T>(1) << (sizeof(T) * 8 - 1)`. -/
def msb_v (T : UType) : Nat := wrap T (static_cast T 1 <<< (sizeof T * 8 - 1))

/-- The constant `but_msb_v<T>`, initialised by `msb_v<T> ^ ((T)-1)`. -/
def but_msb_v (T : UType) : Nat := wrap T (msb_v T ^^^ static_cast T (-1))

/-- The constant `lsb_v<T>`, initialised by `1`. -/
def lsb_v (T : UType) : Nat := static_cast T 1

/-- The constant `but_lsb_v<T>`, initialised by `1 ^ ((T)-1)`. -/
def but_lsb_v (T : UType) : Nat := wrap T (1 ^^^ static_cast T (-1))

/-! ## Indexed masks and range masks, guarded by `static_assert` -/

/-- The struct `bit<T, n>`: `static_assert(n < sizeof(T) * 8)`, then
`value = static_cast<T>(1) << n`. -/
def bit (T : UType) (n : Nat) : Option Nat :=
  if n < sizeof T * 8 then some (wrap T (static_cast T 1 <<< n)) else none

/-- The struct `but_bit<T, n>`: `static_assert(n < sizeof(T) * 8)`, then
`value = ~(static_cast<T>(1) << n)`. -/
def but_bit (T : UType) (n : Nat) : Option Nat :=
  if n < sizeof T * 8 then
    some (static_cast T (compl ((wrap T (static_cast T 1 <<< n) : Nat) : Int)))
  else none

/-- The struct `up_to<T, bit>`: `static_assert(bit < sizeof(T) * 8)`, then
`value = detail::make_up_to<T>(bit)`. -/
def up_to (T : UType) (bit : Nat) : Option Nat :=
  if bit < sizeof T * 8 then some (make_up_to T bit) else none

/-- The struct `down_to<T, bit>`: `static_assert(bit < sizeof(T) * 8)`, then
`value = detail::make_down_to<T>(bit)`. -/
def down_to (T : UType) (bit : Nat) : Option Nat :=
  if bit < sizeof T * 8 then some (make_down_to T bit) else none

/-- The struct `from_to<T, n1, n2>`: `static_assert(n1 < n2)`,
`static_assert(n2 < sizeof(T) * 8)`, then
`value = detail::make_from_to<T>(n1, n2)`. -/
def from_to (T : UType) (n1 n2 : Nat) : Option Nat :=
  if n1 < n2 then
    if n2 < sizeof T * 8 then some (make_from_to T n1 n2) else none
  else none

/-! ## Specification vocabulary -/

/-- The number of set bits of `x` among the bit positions `0 .. W - 1`. -/
def popcount (T : UType) (x : Nat) : Nat :=
  (List.range (bits T)).countP (fun i => x.testBit i)


/-! ## Guarded shifts

The same computations with every shift guarded by a test on its amount.  The
shape of each function is that of its unguarded counterpart above; only the
shifts may fail. -/

/-- The two ways in which no mask is produced. -/
inductive Failure
  | assertion
  | shift_amount
  deriving DecidableEq

/-- The requirement of the language on a shift amount, taken against the width
`W` of `T` itself (the promoted `int` of the narrow types would allow more). -/
def in_range (T : UType) (s : Nat) : Bool := decide (s < sizeof T * 8)

/-- The operator `<<` with its amount tested by `ok`. -/
def shl_guarded (ok : Nat → Bool) (x s : Nat) : Except Failure Nat :=
  if ok s = true then Except.ok (x <<< s) else Except.error Failure.shift_amount

/-- The operator `>>` with its amount tested by `ok`. -/
def shr_guarded (ok : Nat → Bool) (x s : Nat) : Except Failure Nat :=
  if ok s = true then Except.ok (x >>> s) else Except.error Failure.shift_amount

/-- A `for` loop of `count` rounds whose body may fail. -/
def loop_guarded (body : Nat → Except Failure Nat) : Nat → Nat → Except Failure Nat
  | 0, value => Except.ok value
  | count + 1, value => (body value).bind (loop_guarded body count)

/-- The loop body `value |= value << 1` with a guarded shift. -/
def up_step_guarded (ok : Nat → Bool) (T : UType) (value : Nat) : Except Failure Nat :=
  (shl_guarded ok value 1).map (fun shifted => wrap T (value ||| shifted))

/-- The loop body `value |= value >> 1` with a guarded shift. -/
def down_step_guarded (ok : Nat → Bool) (T : UType) (value : Nat) : Except Failure Nat :=
  (shr_guarded ok value 1).map (fun shifted => wrap T (value ||| shifted))

/-- The function `detail::make_up_to<T>(bit)` with guarded shifts. -/
def make_up_to_guarded (ok : Nat → Bool) (T : UType) (bit : Nat) : Except Failure Nat :=
  loop_guarded (up_step_guarded ok T) bit (static_cast T 1)

/-- The function `detail::make_down_to<T>(bit)` with guarded shifts. -/
def make_down_to_guarded (ok : Nat → Bool) (T : UType) (bit : Nat) : Except Failure Nat :=
  (shl_guarded ok (static_cast T 1) (sizeof T * 8 - 1)).bind (fun msb =>
    let value := wrap T msb
    let count := ulong_sub (sizeof T * 8 - 1) bit
    loop_guarded (down_step_guarded ok T) count value)

/-- The function `detail::make_from_to<T>(n1, n2)` with guarded shifts. -/
def make_from_to_guarded (ok : Nat → Bool) (T : UType) (n1 n2 : Nat) : Except Failure Nat :=
  (make_up_to_guarded ok T n2).bind (fun up =>
    (make_down_to_guarded ok T n1).map (fun down => up &&& down))

/-- The struct `bit<T, n>` with a guarded shift. -/
def bit_guarded (ok : Nat → Bool) (T : UType) (n : Nat) : Except Failure Nat :=
  if n < sizeof T * 8 then
    (shl_guarded ok (static_cast T 1) n).map (fun shifted => wrap T shifted)
  else Except.error Failure.assertion

/-- The struct `but_bit<T, n>` with a guarded shift. -/
def but_bit_guarded (ok : Nat → Bool) (T : UType) (n : Nat) : Except Failure Nat :=
  if n < sizeof T * 8 then
    (shl_guarded ok (static_cast T 1) n).map
      (fun shifted => static_cast T (compl ((wrap T shifted : Nat) : Int)))
  else Except.error Failure.assertion

/-- The struct `up_to<T, bit>` with guarded shifts. -/
def up_to_guarded (ok : Nat → Bool) (T : UType) (bit : Nat) : Except Failure Nat :=
  if bit < sizeof T * 8 then make_up_to_guarded ok T bit else Except.error Failure.assertion

/-- The struct `down_to<T, bit>` with guarded shifts. -/
def down_to_guarded (ok : Nat → Bool) (T : UType) (bit : Nat) : Except Failure Nat :=
  if bit < sizeof T * 8 then make_down_to_guarded ok T bit else Except.error Failure.assertion

/-- The struct `from_to<T, n1, n2>` with guarded shifts. -/
def from_to_guarded (ok : Nat → Bool) (T : UType) (n1 n2 : Nat) : Except Failure Nat :=
  if n1 < n2 then
    if n2 < sizeof T * 8 then make_from_to_guarded ok T n1 n2
    else Except.error Failure.assertion
  else Except.error Failure.assertion

/-- The unguarded struct yields a value and the guarded one yields the same
value, without failure. -/
def same_value (plain : Option Nat) (guarded : Except Failure Nat) : Prop :=
  ∃ v, plain = some v ∧ guarded = Except.ok v

/-! ## Auxiliary facts -/

theorem bits_eq (T : UType) : sizeof T * 8 = bits T := rfl

theorem bits_pos (T : UType) : 0 < bits T := by
  cases T <;> decide

theorem bits_le (T : UType) : bits T ≤ 64 := by
  cases T <;> decide

theorem static_cast_one (T : UType) : static_cast T 1 = 1 := by
  cases T <;> decide

theorem testBit_wrap (T : UType) (x i : Nat) :
    (wrap T x).testBit i = (decide (i < bits T) && x.testBit i) := by
  unfold wrap
  rw [bits_eq, Nat.testBit_mod_two_pow]

theorem wrap_lt (T : UType) (x : Nat) : wrap T x < 2 ^ bits T :=
  Nat.mod_lt _ (Nat.pos_pow_of_pos _ (by decide))

theorem wrap_of_lt (T : UType) {x : Nat} (h : x < 2 ^ bits T) : wrap T x = x :=
  Nat.mod_eq_of_lt h

theorem testBit_up_step (T : UType) (v i : Nat) :
    (up_step T v).testBit i =
      (decide (i < bits T) && (v.testBit i || (decide (1 ≤ i) && v.testBit (i - 1)))) := by
  unfold up_step
  rw [testBit_wrap, Nat.testBit_or, Nat.testBit_shiftLeft]

theorem testBit_down_step (T : UType) (v i : Nat) :
    (down_step T v).testBit i =
      (decide (i < bits T) && (v.testBit i || v.testBit (i + 1))) := by
  unfold down_step
  rw [testBit_wrap, Nat.testBit_or, Nat.testBit_shiftRight, Nat.add_comm 1 i]

/-- Reducing the shifted operand modulo `2 ^ W` before the OR, as the wide
types do, gives the same stored value as reducing after it. -/
theorem up_step_shift_in_T (T : UType) (v : Nat) :
    up_step T v = wrap T (v ||| wrap T (v <<< 1)) := by
  apply Nat.eq_of_testBit_eq
  intro i
  rw [testBit_up_step, testBit_wrap, Nat.testBit_or, testBit_wrap, Nat.testBit_shiftLeft]
  cases decide (i < bits T) <;> rfl

/-- After `k` rounds of the upward loop, exactly the bits `0 .. k` below the
width are set. -/
theorem testBit_up_loop (T : UType) (k i : Nat) :
    ((up_step T)^[k] 1).testBit i = decide (i ≤ k ∧ i < bits T) := by
  induction k generalizing i with
  | zero =>
    have hW := bits_pos T
    rw [Function.iterate_zero, id, Bool.eq_iff_iff, Nat.testBit_one_eq_true_iff_self_eq_zero,
      decide_eq_true_iff]
    omega
  | succ k ih =>
    rw [Function.iterate_succ_apply', testBit_up_step, ih, ih, Bool.eq_iff_iff]
    simp only [Bool.and_eq_true, Bool.or_eq_true, decide_eq_true_iff]
    omega

/-- After `k` rounds of the downward loop started at the msb, exactly the
bits `W - 1 - k .. W - 1` are set. -/
theorem testBit_down_loop (T : UType) (k i : Nat) :
    ((down_step T)^[k] (2 ^ (bits T - 1))).testBit i
      = decide (bits T - 1 - k ≤ i ∧ i < bits T) := by
  have hW := bits_pos T
  induction k generalizing i with
  | zero =>
    rw [Function.iterate_zero, id, Nat.testBit_two_pow, Bool.eq_iff_iff, decide_eq_true_iff,
      decide_eq_true_iff]
    omega
  | succ k ih =>
    rw [Function.iterate_succ_apply', testBit_down_step, ih, ih, Bool.eq_iff_iff]
    simp only [Bool.and_eq_true, Bool.or_eq_true, decide_eq_true_iff]
    omega

/-- The bits of a difference of two powers of two. -/
theorem testBit_two_pow_sub_two_pow {a b : Nat} (hab : a ≤ b) (i : Nat) :
    (2 ^ b - 2 ^ a).testBit i = decide (a ≤ i ∧ i < b) := by
  have h : 2 ^ b - 2 ^ a = (2 ^ (b - a) - 1) <<< a := by
    rw [Nat.shiftLeft_eq, Nat.sub_mul, ← Nat.pow_add, Nat.sub_add_cancel hab, Nat.one_mul]
  rw [h, Nat.testBit_shiftLeft, Nat.testBit_two_pow_sub_one, Bool.eq_iff_iff]
  simp only [Bool.and_eq_true, decide_eq_true_iff]
  omega

theorem msb_start (T : UType) :
    wrap T (static_cast T 1 <<< (sizeof T * 8 - 1)) = 2 ^ (bits T - 1) := by
  cases T <;> decide

theorem ulong_sub_of_le {a b : Nat} (hb : b ≤ a) (ha : a < 2 ^ 64) :
    ulong_sub a b = a - b := by
  unfold ulong_sub
  have h1 : ((a : Int) - (b : Int)) = ((a - b : Nat) : Int) := by omega
  rw [h1]
  have h2 : (((a - b : Nat) : Int) % 2 ^ 64) = ((a - b : Nat) : Int) := by
    apply Int.emod_eq_of_lt <;> omega
  rw [h2, Int.toNat_ofNat]

theorem make_up_to_testBit (T : UType) (n i : Nat) :
    (make_up_to T n).testBit i = decide (i ≤ n ∧ i < bits T) := by
  unfold make_up_to
  rw [static_cast_one, testBit_up_loop]

theorem make_up_to_eq (T : UType) {n : Nat} (hn : n < bits T) :
    make_up_to T n = 2 ^ (n + 1) - 1 := by
  apply Nat.eq_of_testBit_eq
  intro i
  rw [make_up_to_testBit, Nat.testBit_two_pow_sub_one, Bool.eq_iff_iff, decide_eq_true_iff,
    decide_eq_true_iff]
  omega

theorem make_down_to_testBit (T : UType) {n : Nat} (hn : n < bits T) (i : Nat) :
    (make_down_to T n).testBit i = decide (n ≤ i ∧ i < bits T) := by
  have hW := bits_le T
  unfold make_down_to
  simp only []
  rw [msb_start, bits_eq, ulong_sub_of_le (by omega) (by omega), testBit_down_loop,
    Bool.eq_iff_iff, decide_eq_true_iff, decide_eq_true_iff]
  omega

theorem make_down_to_eq (T : UType) {n : Nat} (hn : n < bits T) :
    make_down_to T n = 2 ^ bits T - 2 ^ n := by
  apply Nat.eq_of_testBit_eq
  intro i
  rw [make_down_to_testBit T hn, testBit_two_pow_sub_two_pow (Nat.le_of_lt hn)]

theorem make_from_to_testBit (T : UType) (n1 n2 : Nat) (h1 : n1 < bits T) (i : Nat) :
    (make_from_to T n1 n2).testBit i = decide (n1 ≤ i ∧ i ≤ n2 ∧ i < bits T) := by
  unfold make_from_to
  rw [Nat.testBit_and, make_up_to_testBit, make_down_to_testBit T h1, Bool.eq_iff_iff]
  simp only [Bool.and_eq_true, decide_eq_true_iff]
  omega

/-- Counting the positions of an interval among `0 .. W - 1`. -/
theorem countP_range_interval (a b W : Nat) :
    (List.range W).countP (fun i => decide (a ≤ i ∧ i ≤ b)) = min W (b + 1) - a := by
  induction W with
  | zero => simp
  | succ W ih =>
    rw [List.range_succ, List.countP_append, ih, List.countP_singleton]
    by_cases h : a ≤ W ∧ W ≤ b
    · rw [if_pos (by simpa using h)]
      omega
    · rw [if_neg (by simpa using h)]
      omega

/-- The popcount of a value whose set bits are exactly an interval of
positions inside the word. -/
theorem popcount_of_interval (T : UType) (x a b : Nat) (hb : b < bits T)
    (hx : ∀ i, i < bits T → (x.testBit i = true ↔ a ≤ i ∧ i ≤ b)) :
    popcount T x = b + 1 - a := by
  unfold popcount
  rw [List.countP_congr (q := fun i => decide (a ≤ i ∧ i ≤ b)), countP_range_interval]
  · omega
  · intro i hi
    rw [List.mem_range] at hi
    rw [hx i hi, decide_eq_true_iff]

theorem make_up_to_lt (T : UType) (n : Nat) : make_up_to T n < 2 ^ bits T := by
  apply Nat.lt_pow_two_of_testBit
  intro i hi
  rw [make_up_to_testBit, decide_eq_false_iff_not]
  omega

theorem make_down_to_lt (T : UType) {n : Nat} (hn : n < bits T) :
    make_down_to T n < 2 ^ bits T := by
  apply Nat.lt_pow_two_of_testBit
  intro i hi
  rw [make_down_to_testBit T hn, decide_eq_false_iff_not]
  omega

theorem all_v_eq (T : UType) : all_v T = 2 ^ bits T - 1 := by
  cases T <;> decide

theorem bit_value (T : UType) {n : Nat} (hn : n < bits T) :
    wrap T (static_cast T 1 <<< n) = 2 ^ n := by
  rw [static_cast_one, Nat.shiftLeft_eq, Nat.one_mul]
  exact wrap_of_lt T (Nat.pow_lt_pow_right (by decide) hn)

theorem static_cast_compl (T : UType) {x : Nat} (hx : x < 2 ^ bits T) :
    static_cast T (compl (x : Int)) = 2 ^ bits T - 1 - x := by
  unfold static_cast compl
  rw [bits_eq]
  have hp : ((2 ^ bits T : Nat) : Int) = (2 : Int) ^ bits T := by push_cast; rfl
  have h1 : (-(x : Int) - 1) = ((2 ^ bits T - 1 - x : Nat) : Int) + (-1) * (2 : Int) ^ bits T := by
    rw [← hp]
    omega
  rw [h1, Int.add_mul_emod_self, ← hp]
  have h2 : ((2 ^ bits T - 1 - x : Nat) : Int) % ((2 ^ bits T : Nat) : Int)
      = ((2 ^ bits T - 1 - x : Nat) : Int) := by
    apply Int.emod_eq_of_lt <;> omega
  rw [h2, Int.toNat_ofNat]

/-! ## Range masks: bit patterns and values -/

/-- C1: for every type `T` of width `W` and every `n < W`, `up_to<T, n>` is
accepted and yields `detail::make_up_to<T>(n)`; this `W`-bit value has bit `i`
set if and only if `i ≤ n`, for every position `i < W`, and it equals
`2 ^ (n + 1) - 1`. -/
theorem up_to_bits (T : UType) (n : Nat) (hn : n < bits T) :
    up_to T n = some (make_up_to T n) ∧
      make_up_to T n < 2 ^ bits T ∧
      (∀ i, i < bits T → ((make_up_to T n).testBit i = true ↔ i ≤ n)) ∧
      make_up_to T n = 2 ^ (n + 1) - 1 := by
  refine ⟨?_, make_up_to_lt T n, ?_, make_up_to_eq T hn⟩
  · unfold up_to
    rw [bits_eq, if_pos hn]
  · intro i hi
    rw [make_up_to_testBit, decide_eq_true_iff]
    omega

theorem up_to_bits_witness :
    3 < bits UType.uint8_t ∧
      (up_to UType.uint8_t 3 = some (make_up_to UType.uint8_t 3) ∧
        make_up_to UType.uint8_t 3 < 2 ^ bits UType.uint8_t ∧
        (∀ i, i < bits UType.uint8_t →
          ((make_up_to UType.uint8_t 3).testBit i = true ↔ i ≤ 3)) ∧
        make_up_to UType.uint8_t 3 = 2 ^ (3 + 1) - 1) :=
  ⟨by decide, up_to_bits UType.uint8_t 3 (by decide)⟩

/-- C2: for every type `T` of width `W` and every `n < W`, `down_to<T, n>` is
accepted and yields `detail::make_down_to<T>(n)`; this `W`-bit value has bit
`i` set if and only if `n ≤ i`, for every position `i < W`, and it equals
`2 ^ W - 2 ^ n`. -/
theorem down_to_bits (T : UType) (n : Nat) (hn : n < bits T) :
    down_to T n = some (make_down_to T n) ∧
      make_down_to T n < 2 ^ bits T ∧
      (∀ i, i < bits T → ((make_down_to T n).testBit i = true ↔ n ≤ i)) ∧
      make_down_to T n = 2 ^ bits T - 2 ^ n := by
  refine ⟨?_, make_down_to_lt T hn, ?_, make_down_to_eq T hn⟩
  · unfold down_to
    rw [bits_eq, if_pos hn]
  · intro i hi
    rw [make_down_to_testBit T hn, decide_eq_true_iff]
    omega

theorem down_to_bits_witness :
    5 < bits UType.uint8_t ∧
      (down_to UType.uint8_t 5 = some (make_down_to UType.uint8_t 5) ∧
        make_down_to UType.uint8_t 5 < 2 ^ bits UType.uint8_t ∧
        (∀ i, i < bits UType.uint8_t →
          ((make_down_to UType.uint8_t 5).testBit i = true ↔ 5 ≤ i)) ∧
        make_down_to UType.uint8_t 5 = 2 ^ bits UType.uint8_t - 2 ^ 5) :=
  ⟨by decide, down_to_bits UType.uint8_t 5 (by decide)⟩

/-- C3: for every type `T` of width `W` and every `n1 < n2 < W`,
`from_to<T, n1, n2>` is accepted and yields
`make_up_to<T>(n2) & make_down_to<T>(n1)`, a `W`-bit value whose bit `i` is set
if and only if `n1 ≤ i ≤ n2`, for every position `i < W`. -/
theorem from_to_bits (T : UType) (n1 n2 : Nat) (h12 : n1 < n2) (h2 : n2 < bits T) :
    from_to T n1 n2 = some (make_up_to T n2 &&& make_down_to T n1) ∧
      (make_up_to T n2 &&& make_down_to T n1) < 2 ^ bits T ∧
      (∀ i, i < bits T →
        ((make_up_to T n2 &&& make_down_to T n1).testBit i = true ↔ n1 ≤ i ∧ i ≤ n2)) := by
  have h1 : n1 < bits T := Nat.lt_trans h12 h2
  refine ⟨?_, ?_, ?_⟩
  · unfold from_to
    rw [bits_eq, if_pos h12, if_pos h2]
    rfl
  · exact Nat.lt_of_le_of_lt Nat.and_le_left (make_up_to_lt T n2)
  · intro i hi
    have h := make_from_to_testBit T n1 n2 h1 i
    unfold make_from_to at h
    rw [h, decide_eq_true_iff]
    omega

theorem from_to_bits_witness :
    2 < 5 ∧ 5 < bits UType.uint8_t ∧
      (from_to UType.uint8_t 2 5
          = some (make_up_to UType.uint8_t 5 &&& make_down_to UType.uint8_t 2) ∧
        (make_up_to UType.uint8_t 5 &&& make_down_to UType.uint8_t 2)
          < 2 ^ bits UType.uint8_t ∧
        (∀ i, i < bits UType.uint8_t →
          ((make_up_to UType.uint8_t 5 &&& make_down_to UType.uint8_t 2).testBit i = true
            ↔ 2 ≤ i ∧ i ≤ 5))) :=
  ⟨by decide, by decide, from_to_bits UType.uint8_t 2 5 (by decide) (by decide)⟩

/-! ## Construction-time checks -/

/-- C4: for every type `T` of width `W` and every pair `(n1, n2)`,
`from_to<T, n1, n2>` is rejected (no value) if and only if `n1 ≥ n2` or
`n2 ≥ W`; it yields a value if and only if `n1 < n2 < W`, and then `n1 < W`
as well and the value is `detail::make_from_to<T>(n1, n2)`. -/
theorem from_to_rejected_iff (T : UType) (n1 n2 : Nat) :
    (from_to T n1 n2 = none ↔ (n1 ≥ n2 ∨ n2 ≥ bits T)) ∧
      ((∃ v, from_to T n1 n2 = some v) ↔ (n1 < n2 ∧ n2 < bits T ∧ n1 < bits T)) ∧
      ((n1 < n2 ∧ n2 < bits T) ↔ from_to T n1 n2 = some (make_from_to T n1 n2)) := by
  unfold from_to
  rw [bits_eq]
  by_cases h12 : n1 < n2
  · by_cases h2 : n2 < bits T
    · rw [if_pos h12, if_pos h2]
      simp only [Option.some.injEq, exists_eq', reduceCtorEq, false_iff, true_iff, iff_true]
      omega
    · rw [if_pos h12, if_neg h2]
      simp only [reduceCtorEq, exists_false, false_iff, true_iff, iff_false]
      omega
  · rw [if_neg h12]
    simp only [reduceCtorEq, exists_false, false_iff, true_iff, iff_false]
    omega

/-- C5: for every type `T` of width `W` and every position `n`, each of
`bit<T, n>`, `but_bit<T, n>`, `up_to<T, n>` and `down_to<T, n>` is rejected
(no value) if and only if `n ≥ W`, and yields a value if and only if
`n < W`. -/
theorem indexed_rejected_iff (T : UType) (n : Nat) :
    ((bit T n = none ↔ n ≥ bits T) ∧ ((∃ v, bit T n = some v) ↔ n < bits T)) ∧
      ((but_bit T n = none ↔ n ≥ bits T) ∧ ((∃ v, but_bit T n = some v) ↔ n < bits T)) ∧
      ((up_to T n = none ↔ n ≥ bits T) ∧ ((∃ v, up_to T n = some v) ↔ n < bits T)) ∧
      ((down_to T n = none ↔ n ≥ bits T) ∧ ((∃ v, down_to T n = some v) ↔ n < bits T)) := by
  unfold bit but_bit up_to down_to
  rw [bits_eq]
  by_cases hn : n < bits T
  · have hge : ¬ n ≥ bits T := Nat.not_le_of_lt hn
    simp [hn, hge]
  · have hge : n ≥ bits T := Nat.le_of_not_lt hn
    simp [hn, hge]

/-! ## Indexed single-bit masks -/

/-- C6: for every type `T` of width `W` and every `n < W`, `bit<T, n>` yields
`2 ^ n`, which has exactly one set bit (popcount `1`), the one at position
`n`; `but_bit<T, n>` yields the `W`-bit complement of that value: it is below
`2 ^ W`, each of its bits below `W` is the negation of the bit of `bit<T, n>`,
so every bit except position `n` is set. -/
theorem bit_and_but_bit (T : UType) (n : Nat) (hn : n < bits T) :
    ∃ b c, bit T n = some b ∧ but_bit T n = some c ∧
      b = 2 ^ n ∧ popcount T b = 1 ∧
      (∀ i, i < bits T → (b.testBit i = true ↔ i = n)) ∧
      c = 2 ^ bits T - 1 - b ∧ c < 2 ^ bits T ∧
      (∀ i, i < bits T → c.testBit i = !b.testBit i) ∧
      (∀ i, i < bits T → (c.testBit i = true ↔ i ≠ n)) := by
  have hlt : 2 ^ n < 2 ^ bits T := Nat.pow_lt_pow_right (by decide) hn
  have hpos : 0 < 2 ^ n := Nat.pos_pow_of_pos _ (by decide)
  have hb : ∀ i, ((2 ^ n).testBit i = true ↔ i = n) := by
    intro i
    rw [Nat.testBit_two_pow, decide_eq_true_iff]
    omega
  have hc : ∀ i, i < bits T → (2 ^ bits T - 1 - 2 ^ n).testBit i = !(2 ^ n).testBit i := by
    intro i hi
    rw [Nat.sub_sub, Nat.add_comm 1, Nat.testBit_two_pow_sub_succ hlt, decide_eq_true hi,
      Bool.true_and]
  refine ⟨2 ^ n, 2 ^ bits T - 1 - 2 ^ n, ?_, ?_, rfl, ?_, fun i _ => hb i, rfl, by omega, hc, ?_⟩
  · unfold bit
    rw [bits_eq, if_pos hn, bit_value T hn]
  · unfold but_bit
    rw [bits_eq, if_pos hn, bit_value T hn, static_cast_compl T hlt]
  · rw [popcount_of_interval T (2 ^ n) n n hn]
    · omega
    · intro i _
      rw [hb i]
      omega
  · intro i hi
    rw [hc i hi, Bool.not_eq_true', ← Bool.not_eq_true, hb i]

theorem bit_and_but_bit_witness :
    7 < bits UType.uint8_t ∧
      (∃ b c, bit UType.uint8_t 7 = some b ∧ but_bit UType.uint8_t 7 = some c ∧
        b = 2 ^ 7 ∧ popcount UType.uint8_t b = 1 ∧
        (∀ i, i < bits UType.uint8_t → (b.testBit i = true ↔ i = 7)) ∧
        c = 2 ^ bits UType.uint8_t - 1 - b ∧ c < 2 ^ bits UType.uint8_t ∧
        (∀ i, i < bits UType.uint8_t → c.testBit i = !b.testBit i) ∧
        (∀ i, i < bits UType.uint8_t → (c.testBit i = true ↔ i ≠ 7))) :=
  ⟨by decide, bit_and_but_bit UType.uint8_t 7 (by decide)⟩

/-! ## Popcounts of the range masks -/

/-- C7: for every type `T` of width `W` and every `n < W`, the value of
`up_to<T, n>` has exactly `n + 1` set bits. -/
theorem popcount_up_to (T : UType) (n : Nat) (hn : n < bits T) :
    ∃ v, up_to T n = some v ∧ popcount T v = n + 1 := by
  refine ⟨make_up_to T n, ?_, ?_⟩
  · unfold up_to
    rw [bits_eq, if_pos hn]
  · rw [popcount_of_interval T (make_up_to T n) 0 n hn]
    · omega
    · intro i hi
      rw [make_up_to_testBit, decide_eq_true_iff]
      omega

theorem popcount_up_to_witness :
    3 < bits UType.uint16_t ∧
      (∃ v, up_to UType.uint16_t 3 = some v ∧ popcount UType.uint16_t v = 3 + 1) :=
  ⟨by decide, popcount_up_to UType.uint16_t 3 (by decide)⟩

/-- C8: for every type `T` of width `W` and every `n < W`, the value of
`down_to<T, n>` has exactly `W - n` set bits. -/
theorem popcount_down_to (T : UType) (n : Nat) (hn : n < bits T) :
    ∃ v, down_to T n = some v ∧ popcount T v = bits T - n := by
  have hW := bits_pos T
  refine ⟨make_down_to T n, ?_, ?_⟩
  · unfold down_to
    rw [bits_eq, if_pos hn]
  · rw [popcount_of_interval T (make_down_to T n) n (bits T - 1) (by omega)]
    · omega
    · intro i hi
      rw [make_down_to_testBit T hn, decide_eq_true_iff]
      omega

theorem popcount_down_to_witness :
    5 < bits UType.uint16_t ∧
      (∃ v, down_to UType.uint16_t 5 = some v ∧
        popcount UType.uint16_t v = bits UType.uint16_t - 5) :=
  ⟨by decide, popcount_down_to UType.uint16_t 5 (by decide)⟩

/-- C9: for every type `T` of width `W` and every `n1 < n2 < W`, the value of
`from_to<T, n1, n2>` has exactly `n2 - n1 + 1` set bits. -/
theorem popcount_from_to (T : UType) (n1 n2 : Nat) (h12 : n1 < n2) (h2 : n2 < bits T) :
    ∃ v, from_to T n1 n2 = some v ∧ popcount T v = n2 - n1 + 1 := by
  have h1 : n1 < bits T := Nat.lt_trans h12 h2
  refine ⟨make_from_to T n1 n2, ?_, ?_⟩
  · unfold from_to
    rw [bits_eq, if_pos h12, if_pos h2]
  · rw [popcount_of_interval T (make_from_to T n1 n2) n1 n2 h2]
    · omega
    · intro i hi
      rw [make_from_to_testBit T n1 n2 h1, decide_eq_true_iff]
      omega

theorem popcount_from_to_witness :
    2 < 5 ∧ 5 < bits UType.uint32_t ∧
      (∃ v, from_to UType.uint32_t 2 5 = some v ∧ popcount UType.uint32_t v = 5 - 2 + 1) :=
  ⟨by decide, by decide, popcount_from_to UType.uint32_t 2 5 (by decide) (by decide)⟩

/-! ## Extreme positions -/

/-- C10: for every type `T` of width `W`, `up_to<T, W - 1>` and
`down_to<T, 0>` both yield `all_v<T>`, the `W`-bit value `2 ^ W - 1` in which
every bit below `W` is set. -/
theorem range_extremes_all (T : UType) :
    up_to T (bits T - 1) = some (all_v T) ∧ down_to T 0 = some (all_v T) ∧
      all_v T = 2 ^ bits T - 1 ∧ (∀ i, i < bits T → (all_v T).testBit i = true) := by
  have hW := bits_pos T
  have h1 : bits T - 1 < bits T := by omega
  refine ⟨?_, ?_, all_v_eq T, ?_⟩
  · unfold up_to
    rw [bits_eq, if_pos h1, make_up_to_eq T h1, all_v_eq, Nat.sub_add_cancel hW]
  · unfold down_to
    rw [bits_eq, if_pos hW, make_down_to_eq T hW, all_v_eq, Nat.pow_zero]
  · intro i hi
    rw [all_v_eq, Nat.testBit_two_pow_sub_one, decide_eq_true hi]

/-! ## Facts about the guarded computations -/

theorem shl_guarded_ok {ok : Nat → Bool} {s : Nat} (h : ok s = true) (x : Nat) :
    shl_guarded ok x s = Except.ok (x <<< s) := by
  unfold shl_guarded
  rw [if_pos h]

theorem shr_guarded_ok {ok : Nat → Bool} {s : Nat} (h : ok s = true) (x : Nat) :
    shr_guarded ok x s = Except.ok (x >>> s) := by
  unfold shr_guarded
  rw [if_pos h]

/-- A guarded loop whose body never fails computes the iterate of the
unguarded body. -/
theorem loop_guarded_ok (body : Nat → Except Failure Nat) (f : Nat → Nat)
    (h : ∀ v, body v = Except.ok (f v)) (count value : Nat) :
    loop_guarded body count value = Except.ok (f^[count] value) := by
  induction count generalizing value with
  | zero => rfl
  | succ k ih =>
    rw [loop_guarded, h value, Function.iterate_succ_apply]
    exact ih (f value)

theorem make_up_to_guarded_ok {ok : Nat → Bool} (h1 : ok 1 = true) (T : UType) (n : Nat) :
    make_up_to_guarded ok T n = Except.ok (make_up_to T n) := by
  unfold make_up_to_guarded make_up_to
  apply loop_guarded_ok
  intro v
  unfold up_step_guarded up_step
  rw [shl_guarded_ok h1]
  rfl

theorem make_down_to_guarded_ok {ok : Nat → Bool} (h1 : ok 1 = true) (T : UType)
    (hW : ok (sizeof T * 8 - 1) = true) (n : Nat) :
    make_down_to_guarded ok T n = Except.ok (make_down_to T n) := by
  unfold make_down_to_guarded make_down_to
  rw [shl_guarded_ok hW]
  apply loop_guarded_ok
  intro v
  unfold down_step_guarded down_step
  rw [shr_guarded_ok h1]
  rfl

theorem make_from_to_guarded_ok {ok : Nat → Bool} (h1 : ok 1 = true) (T : UType)
    (hW : ok (sizeof T * 8 - 1) = true) (n1 n2 : Nat) :
    make_from_to_guarded ok T n1 n2 = Except.ok (make_from_to T n1 n2) := by
  unfold make_from_to_guarded
  rw [make_up_to_guarded_ok h1, make_down_to_guarded_ok h1 T hW]
  rfl

theorem in_range_iff (T : UType) (s : Nat) : in_range T s = true ↔ s < bits T := by
  unfold in_range
  rw [bits_eq, decide_eq_true_iff]

theorem same_value_bit {ok : Nat → Bool} (T : UType) {m : Nat} (hm : m < bits T)
    (hok : ok m = true) : same_value (bit T m) (bit_guarded ok T m) := by
  refine ⟨wrap T (static_cast T 1 <<< m), ?_, ?_⟩
  · unfold bit
    rw [bits_eq, if_pos hm]
  · unfold bit_guarded
    rw [bits_eq, if_pos hm, shl_guarded_ok hok]
    rfl

theorem same_value_but_bit {ok : Nat → Bool} (T : UType) {m : Nat} (hm : m < bits T)
    (hok : ok m = true) : same_value (but_bit T m) (but_bit_guarded ok T m) := by
  refine ⟨static_cast T (compl ((wrap T (static_cast T 1 <<< m) : Nat) : Int)), ?_, ?_⟩
  · unfold but_bit
    rw [bits_eq, if_pos hm]
  · unfold but_bit_guarded
    rw [bits_eq, if_pos hm, shl_guarded_ok hok]
    rfl

theorem same_value_up_to {ok : Nat → Bool} (T : UType) {m : Nat} (hm : m < bits T)
    (h1 : ok 1 = true) : same_value (up_to T m) (up_to_guarded ok T m) := by
  refine ⟨make_up_to T m, ?_, ?_⟩
  · unfold up_to
    rw [bits_eq, if_pos hm]
  · unfold up_to_guarded
    rw [bits_eq, if_pos hm, make_up_to_guarded_ok h1]

theorem same_value_down_to {ok : Nat → Bool} (T : UType) {m : Nat} (hm : m < bits T)
    (h1 : ok 1 = true) (hW : ok (bits T - 1) = true) :
    same_value (down_to T m) (down_to_guarded ok T m) := by
  refine ⟨make_down_to T m, ?_, ?_⟩
  · unfold down_to
    rw [bits_eq, if_pos hm]
  · unfold down_to_guarded
    rw [bits_eq, if_pos hm, make_down_to_guarded_ok h1 T hW]

theorem same_value_from_to {ok : Nat → Bool} (T : UType) {n1 n2 : Nat} (h12 : n1 < n2)
    (h2 : n2 < bits T) (h1 : ok 1 = true) (hW : ok (bits T - 1) = true) :
    same_value (from_to T n1 n2) (from_to_guarded ok T n1 n2) := by
  refine ⟨make_from_to T n1 n2, ?_, ?_⟩
  · unfold from_to
    rw [bits_eq, if_pos h12, if_pos h2]
  · unfold from_to_guarded
    rw [bits_eq, if_pos h12, if_pos h2, make_from_to_guarded_ok h1 T hW]

/-- The guard is effective: an amount of at least the width is refused. -/
theorem shl_guarded_refuses (T : UType) (x : Nat) {s : Nat} (hs : bits T ≤ s) :
    shl_guarded (in_range T) x s = Except.error Failure.shift_amount := by
  unfold shl_guarded
  rw [if_neg]
  rw [in_range_iff]
  omega

/-! ## Closed forms of the primitive masks -/

theorem none_v_eq (T : UType) : none_v T = 0 := by
  cases T <;> decide

theorem lsb_v_eq (T : UType) : lsb_v T = 1 := static_cast_one T

theorem msb_v_eq (T : UType) : msb_v T = 2 ^ (bits T - 1) := msb_start T

theorem but_msb_v_eq (T : UType) : but_msb_v T = 2 ^ (bits T - 1) - 1 := by
  cases T <;> decide

theorem but_lsb_v_eq (T : UType) : but_lsb_v T = 2 ^ bits T - 2 := by
  cases T <;> decide

/-! ## Degenerate ranges and primitive masks -/

/-- C11: for every type `T` of width `W`, the one-bit ranges are the primitive
masks: `up_to<T, 0>` yields `lsb_v<T>` and `down_to<T, W - 1>` yields
`msb_v<T>`. -/
theorem range_degenerate_single_bit (T : UType) :
    up_to T 0 = some (lsb_v T) ∧ down_to T (bits T - 1) = some (msb_v T) := by
  have hW := bits_pos T
  have hle := bits_le T
  constructor
  · unfold up_to
    rw [bits_eq, if_pos hW]
    rfl
  · unfold down_to make_down_to
    simp only []
    rw [bits_eq, if_pos (by omega), ulong_sub_of_le (Nat.le_refl _) (by omega), Nat.sub_self,
      Function.iterate_zero, id]
    rfl

/-- C12: for every type `T`, the primitive masks partition the word:
`msb | but_msb == all`, `msb & but_msb == none`, `lsb | but_lsb == all`,
`lsb & but_lsb == none`, and `all ^ none == all`. -/
theorem primitive_partition (T : UType) :
    msb_v T ||| but_msb_v T = all_v T ∧ msb_v T &&& but_msb_v T = none_v T ∧
      lsb_v T ||| but_lsb_v T = all_v T ∧ lsb_v T &&& but_lsb_v T = none_v T ∧
      all_v T ^^^ none_v T = all_v T := by
  cases T
  · decide
  · decide
  · decide
  · decide

/-- C13: for every type `T` of width `W`, the primitive masks have their
closed-form values: `all == 2 ^ W - 1`, `none == 0`, `msb == 2 ^ (W - 1)`,
`but_msb == 2 ^ (W - 1) - 1`, `lsb == 1`, `but_lsb == 2 ^ W - 2`. -/
theorem primitive_closed_forms (T : UType) :
    all_v T = 2 ^ bits T - 1 ∧ none_v T = 0 ∧ msb_v T = 2 ^ (bits T - 1) ∧
      but_msb_v T = 2 ^ (bits T - 1) - 1 ∧ lsb_v T = 1 ∧ but_lsb_v T = 2 ^ bits T - 2 :=
  ⟨all_v_eq T, none_v_eq T, msb_v_eq T, but_msb_v_eq T, lsb_v_eq T, but_lsb_v_eq T⟩

/-- C14: on the 8-bit unsigned type, `up_to(3) == 0x0F`, `down_to(5) == 0xE0`,
`from_to(2,5) == 0x3C`, `bit(0) == 0x01`, `bit(7) == msb == 0x80`,
`all == 0xFF` and `none == 0x00`. -/
theorem uint8_concrete_values :
    up_to UType.uint8_t 3 = some 0x0F ∧ down_to UType.uint8_t 5 = some 0xE0 ∧
      from_to UType.uint8_t 2 5 = some 0x3C ∧ bit UType.uint8_t 0 = some 0x01 ∧
      bit UType.uint8_t 7 = some (msb_v UType.uint8_t) ∧ msb_v UType.uint8_t = 0x80 ∧
      all_v UType.uint8_t = 0xFF ∧ none_v UType.uint8_t = 0x00 := by
  refine ⟨?_, ?_, ?_, ?_, ?_, ?_, ?_, ?_⟩ <;> decide

/-! ## Shift amounts -/

/-- C15: for every type `T` of width `W` and all accepted parameters (`n < W`
for `bit`, `but_bit`, `up_to`, `down_to`; `n1 < n2 < W` for `from_to`), the
amounts `1`, `W - 1` and `n` are below `W`; with every shift guarded by
"amount `< W`" each mask is produced without failure and equals the unguarded
mask, also at the extreme positions `0` and `W - 1`; and the same holds for
any guard that admits just the amounts `1`, `W - 1` and `n`, so no other
amount is ever shifted by. -/
theorem guarded_shifts_never_fail (T : UType) (n n1 n2 : Nat) (hn : n < bits T)
    (h12 : n1 < n2) (h2 : n2 < bits T) :
    (in_range T 1 = true ∧ in_range T (bits T - 1) = true ∧ in_range T n = true) ∧
      (same_value (bit T n) (bit_guarded (in_range T) T n) ∧
        same_value (but_bit T n) (but_bit_guarded (in_range T) T n) ∧
        same_value (up_to T n) (up_to_guarded (in_range T) T n) ∧
        same_value (down_to T n) (down_to_guarded (in_range T) T n) ∧
        same_value (from_to T n1 n2) (from_to_guarded (in_range T) T n1 n2)) ∧
      (∀ m, m = 0 ∨ m = bits T - 1 →
        same_value (bit T m) (bit_guarded (in_range T) T m) ∧
        same_value (but_bit T m) (but_bit_guarded (in_range T) T m) ∧
        same_value (up_to T m) (up_to_guarded (in_range T) T m) ∧
        same_value (down_to T m) (down_to_guarded (in_range T) T m)) ∧
      (∀ ok : Nat → Bool, ok 1 = true → ok (bits T - 1) = true → ok n = true →
        same_value (bit T n) (bit_guarded ok T n) ∧
        same_value (but_bit T n) (but_bit_guarded ok T n) ∧
        same_value (up_to T n) (up_to_guarded ok T n) ∧
        same_value (down_to T n) (down_to_guarded ok T n) ∧
        same_value (from_to T n1 n2) (from_to_guarded ok T n1 n2)) := by
  have hW := bits_pos T
  have hr1 : in_range T 1 = true := by
    rw [in_range_iff]
    cases T <;> decide
  have hrW : in_range T (bits T - 1) = true := by
    rw [in_range_iff]
    omega
  have hrn : in_range T n = true := (in_range_iff T n).2 hn
  refine ⟨⟨hr1, hrW, hrn⟩, ?_, ?_, ?_⟩
  · exact ⟨same_value_bit T hn hrn, same_value_but_bit T hn hrn, same_value_up_to T hn hr1,
      same_value_down_to T hn hr1 hrW, same_value_from_to T h12 h2 hr1 hrW⟩
  · intro m hm
    have hmW : m < bits T := by omega
    have hrm : in_range T m = true := (in_range_iff T m).2 hmW
    exact ⟨same_value_bit T hmW hrm, same_value_but_bit T hmW hrm, same_value_up_to T hmW hr1,
      same_value_down_to T hmW hr1 hrW⟩
  · intro ok h1 hW1 hokn
    exact ⟨same_value_bit T hn hokn, same_value_but_bit T hn hokn, same_value_up_to T hn h1,
      same_value_down_to T hn h1 hW1, same_value_from_to T h12 h2 h1 hW1⟩

theorem guarded_shifts_never_fail_witness :
    7 < bits UType.uint8_t ∧ 0 < 7 ∧ 7 < bits UType.uint8_t ∧
      ((in_range UType.uint8_t 1 = true ∧ in_range UType.uint8_t (bits UType.uint8_t - 1) = true ∧
          in_range UType.uint8_t 7 = true) ∧
        (same_value (bit UType.uint8_t 7) (bit_guarded (in_range UType.uint8_t) UType.uint8_t 7) ∧
          same_value (but_bit UType.uint8_t 7)
            (but_bit_guarded (in_range UType.uint8_t) UType.uint8_t 7) ∧
          same_value (up_to UType.uint8_t 7)
            (up_to_guarded (in_range UType.uint8_t) UType.uint8_t 7) ∧
          same_value (down_to UType.uint8_t 7)
            (down_to_guarded (in_range UType.uint8_t) UType.uint8_t 7) ∧
          same_value (from_to UType.uint8_t 0 7)
            (from_to_guarded (in_range UType.uint8_t) UType.uint8_t 0 7)) ∧
        (∀ m, m = 0 ∨ m = bits UType.uint8_t - 1 →
          same_value (bit UType.uint8_t m) (bit_guarded (in_range UType.uint8_t) UType.uint8_t m) ∧
          same_value (but_bit UType.uint8_t m)
            (but_bit_guarded (in_range UType.uint8_t) UType.uint8_t m) ∧
          same_value (up_to UType.uint8_t m)
            (up_to_guarded (in_range UType.uint8_t) UType.uint8_t m) ∧
          same_value (down_to UType.uint8_t m)
            (down_to_guarded (in_range UType.uint8_t) UType.uint8_t m)) ∧
        (∀ ok : Nat → Bool, ok 1 = true → ok (bits UType.uint8_t - 1) = true → ok 7 = true →
          same_value (bit UType.uint8_t 7) (bit_guarded ok UType.uint8_t 7) ∧
          same_value (but_bit UType.uint8_t 7) (but_bit_guarded ok UType.uint8_t 7) ∧
          same_value (up_to UType.uint8_t 7) (up_to_guarded ok UType.uint8_t 7) ∧
          same_value (down_to UType.uint8_t 7) (down_to_guarded ok UType.uint8_t 7) ∧
          same_value (from_to UType.uint8_t 0 7) (from_to_guarded ok UType.uint8_t 0 7))) :=
  ⟨by decide, by decide, by decide,
    guarded_shifts_never_fail UType.uint8_t 7 0 7 (by decide) (by decide) (by decide)⟩

/-! ## The loops of the range builders -/

/-- C16: for every type `T` of width `W` and every `k` with `k + 1 < W`,
`make_up_to` starts from `make_up_to(0) == 1` and one more round of the loop
extends the run of set bits by exactly the position `k + 1`:
`make_up_to(k + 1)` is `make_up_to(k) | (make_up_to(k) << 1)` truncated to `W`
bits, which is `make_up_to(k) | bit(k + 1)`, and bit `k + 1` is not set in
`make_up_to(k)`. -/
theorem make_up_to_step (T : UType) (k : Nat) (hk : k + 1 < bits T) :
    make_up_to T 0 = 1 ∧
      make_up_to T (k + 1) = wrap T (make_up_to T k ||| (make_up_to T k <<< 1)) ∧
      (∃ b, bit T (k + 1) = some b ∧ make_up_to T (k + 1) = make_up_to T k ||| b) ∧
      (make_up_to T k).testBit (k + 1) = false ∧
      (make_up_to T (k + 1)).testBit (k + 1) = true := by
  refine ⟨static_cast_one T, ?_, ⟨2 ^ (k + 1), ?_, ?_⟩, ?_, ?_⟩
  · unfold make_up_to
    rw [Function.iterate_succ_apply']
    rfl
  · unfold bit
    rw [bits_eq, if_pos hk, bit_value T hk]
  · apply Nat.eq_of_testBit_eq
    intro i
    rw [Nat.testBit_or, make_up_to_testBit, make_up_to_testBit, Nat.testBit_two_pow,
      Bool.eq_iff_iff]
    simp only [Bool.or_eq_true, decide_eq_true_iff]
    omega
  · rw [make_up_to_testBit, decide_eq_false_iff_not]
    omega
  · rw [make_up_to_testBit, decide_eq_true_iff]
    omega

theorem make_up_to_step_witness :
    6 + 1 < bits UType.uint8_t ∧
      (make_up_to UType.uint8_t 0 = 1 ∧
        make_up_to UType.uint8_t (6 + 1)
          = wrap UType.uint8_t (make_up_to UType.uint8_t 6 ||| (make_up_to UType.uint8_t 6 <<< 1)) ∧
        (∃ b, bit UType.uint8_t (6 + 1) = some b ∧
          make_up_to UType.uint8_t (6 + 1) = make_up_to UType.uint8_t 6 ||| b) ∧
        (make_up_to UType.uint8_t 6).testBit (6 + 1) = false ∧
        (make_up_to UType.uint8_t (6 + 1)).testBit (6 + 1) = true) :=
  ⟨by decide, make_up_to_step UType.uint8_t 6 (by decide)⟩

/-- C17: for every type `T` of width `W` and every `bit < W`, the
`unsigned long` subtraction `count = (W - 1) - bit` in `make_down_to` equals
the mathematical difference (no wrap-around), `count ≤ W - 1`, and the loop
runs exactly `W - 1 - bit` times from the msb; whereas for the position
`bit = W ≥ W` the subtraction wraps modulo `2 ^ 64` to `2 ^ 64 - 1`, which is
larger than `W`, so that `make_down_to(W)` runs its loop `2 ^ 64 - 1` times
from the msb and ends with every bit set instead of the msb alone. -/
theorem make_down_to_count (T : UType) (bit : Nat) (hbit : bit < bits T) :
    ((ulong_sub (sizeof T * 8 - 1) bit : Nat) : Int)
        = ((sizeof T * 8 - 1 : Nat) : Int) - (bit : Int) ∧
      ulong_sub (sizeof T * 8 - 1) bit = bits T - 1 - bit ∧
      ulong_sub (sizeof T * 8 - 1) bit ≤ bits T - 1 ∧
      make_down_to T bit = (down_step T)^[bits T - 1 - bit] (msb_v T) ∧
      (∃ b, b ≥ bits T ∧ b < 2 ^ 64 ∧ ulong_sub (sizeof T * 8 - 1) b > bits T ∧
        ((ulong_sub (sizeof T * 8 - 1) b : Nat) : Int)
          ≠ ((sizeof T * 8 - 1 : Nat) : Int) - (b : Int) ∧
        make_down_to T b = (down_step T)^[ulong_sub (sizeof T * 8 - 1) b] (msb_v T)) ∧
      ulong_sub (sizeof T * 8 - 1) (bits T) = 2 ^ 64 - 1 ∧
      make_down_to T (bits T) = (down_step T)^[2 ^ 64 - 1] (msb_v T) ∧
      make_down_to T (bits T) = all_v T ∧ all_v T ≠ msb_v T := by
  have hle := bits_le T
  have hc : ulong_sub (sizeof T * 8 - 1) bit = bits T - 1 - bit := by
    rw [bits_eq, ulong_sub_of_le (by omega) (by omega)]
  have hwrap : ulong_sub (sizeof T * 8 - 1) (bits T) = 2 ^ 64 - 1 := by
    cases T <;> decide
  have hrun : make_down_to T (bits T) = (down_step T)^[2 ^ 64 - 1] (msb_v T) := by
    unfold make_down_to msb_v
    simp only []
    rw [hwrap]
  have hall : make_down_to T (bits T) = all_v T := by
    apply Nat.eq_of_testBit_eq
    intro i
    rw [hrun, msb_v_eq, testBit_down_loop, all_v_eq, Nat.testBit_two_pow_sub_one,
      Bool.eq_iff_iff, decide_eq_true_iff, decide_eq_true_iff]
    omega
  have hne : all_v T ≠ msb_v T := by
    cases T <;> decide
  refine ⟨?_, hc, ?_, ?_, ⟨bits T, Nat.le_refl _, by omega, ?_, ?_, ?_⟩, hwrap, hrun, hall, hne⟩
  · rw [hc, bits_eq]
    omega
  · rw [hc]
    omega
  · unfold make_down_to msb_v
    simp only []
    rw [hc]
  · rw [hwrap]
    omega
  · rw [hwrap, bits_eq]
    omega
  · rw [hwrap]
    exact hrun

theorem make_down_to_count_witness :
    5 < bits UType.uint8_t ∧
      (((ulong_sub (sizeof UType.uint8_t * 8 - 1) 5 : Nat) : Int)
          = ((sizeof UType.uint8_t * 8 - 1 : Nat) : Int) - ((5 : Nat) : Int) ∧
        ulong_sub (sizeof UType.uint8_t * 8 - 1) 5 = bits UType.uint8_t - 1 - 5 ∧
        ulong_sub (sizeof UType.uint8_t * 8 - 1) 5 ≤ bits UType.uint8_t - 1 ∧
        make_down_to UType.uint8_t 5
          = (down_step UType.uint8_t)^[bits UType.uint8_t - 1 - 5] (msb_v UType.uint8_t) ∧
        (∃ b, b ≥ bits UType.uint8_t ∧ b < 2 ^ 64 ∧
          ulong_sub (sizeof UType.uint8_t * 8 - 1) b > bits UType.uint8_t ∧
          ((ulong_sub (sizeof UType.uint8_t * 8 - 1) b : Nat) : Int)
            ≠ ((sizeof UType.uint8_t * 8 - 1 : Nat) : Int) - (b : Int) ∧
          make_down_to UType.uint8_t b
            = (down_step UType.uint8_t)^[ulong_sub (sizeof UType.uint8_t * 8 - 1) b]
                (msb_v UType.uint8_t)) ∧
        ulong_sub (sizeof UType.uint8_t * 8 - 1) (bits UType.uint8_t) = 2 ^ 64 - 1 ∧
        make_down_to UType.uint8_t (bits UType.uint8_t)
          = (down_step UType.uint8_t)^[2 ^ 64 - 1] (msb_v UType.uint8_t) ∧
        make_down_to UType.uint8_t (bits UType.uint8_t) = all_v UType.uint8_t ∧
        all_v UType.uint8_t ≠ msb_v UType.uint8_t) :=
  ⟨by decide, make_down_to_count UType.uint8_t 5 (by decide)⟩

/-! ## Compositions of the low run and the high run -/

/-- C18: for every type `T` of width `W` and every `n < W`, the helper applied
to a one-bit range gives the indexed bit mask:
`make_from_to(n, n) == make_up_to(n) & make_down_to(n) == bit(n)` (the value
`2 ^ n`), although `from_to<T, n, n>` itself is rejected. -/
theorem make_from_to_single (T : UType) (n : Nat) (hn : n < bits T) :
    make_from_to T n n = make_up_to T n &&& make_down_to T n ∧
      bit T n = some (make_up_to T n &&& make_down_to T n) ∧
      make_from_to T n n = 2 ^ n ∧
      from_to T n n = none := by
  have hv : make_from_to T n n = 2 ^ n := by
    apply Nat.eq_of_testBit_eq
    intro i
    rw [make_from_to_testBit T n n hn, Nat.testBit_two_pow, Bool.eq_iff_iff, decide_eq_true_iff,
      decide_eq_true_iff]
    omega
  refine ⟨rfl, ?_, hv, ?_⟩
  · unfold bit
    rw [bits_eq, if_pos hn, bit_value T hn, ← hv]
    rfl
  · unfold from_to
    rw [if_neg (Nat.lt_irrefl n)]

theorem make_from_to_single_witness :
    4 < bits UType.uint8_t ∧
      (make_from_to UType.uint8_t 4 4
          = make_up_to UType.uint8_t 4 &&& make_down_to UType.uint8_t 4 ∧
        bit UType.uint8_t 4 = some (make_up_to UType.uint8_t 4 &&& make_down_to UType.uint8_t 4) ∧
        make_from_to UType.uint8_t 4 4 = 2 ^ 4 ∧
        from_to UType.uint8_t 4 4 = none) :=
  ⟨by decide, make_from_to_single UType.uint8_t 4 (by decide)⟩

/-- C19: for every type `T` of width `W` and every `n2 < n1 < W`, the low run
`make_up_to(n2)` and the high run `make_down_to(n1)` share no bit, so the
unguarded helper returns the empty mask for the reversed range:
`make_from_to(n1, n2) == make_up_to(n2) & make_down_to(n1) == 0`. -/
theorem make_from_to_reversed (T : UType) (n1 n2 : Nat) (h21 : n2 < n1) (h1 : n1 < bits T) :
    make_from_to T n1 n2 = make_up_to T n2 &&& make_down_to T n1 ∧
      (∀ i, ¬ ((make_up_to T n2).testBit i = true ∧ (make_down_to T n1).testBit i = true)) ∧
      make_from_to T n1 n2 = 0 ∧ make_from_to T n1 n2 = none_v T := by
  have hv : make_from_to T n1 n2 = 0 := by
    apply Nat.eq_of_testBit_eq
    intro i
    rw [make_from_to_testBit T n1 n2 h1, Nat.zero_testBit, decide_eq_false_iff_not]
    omega
  refine ⟨rfl, ?_, hv, ?_⟩
  · intro i
    rw [make_up_to_testBit, make_down_to_testBit T h1, decide_eq_true_iff, decide_eq_true_iff]
    omega
  · rw [hv, none_v_eq]

theorem make_from_to_reversed_witness :
    2 < 5 ∧ 5 < bits UType.uint8_t ∧
      (make_from_to UType.uint8_t 5 2
          = make_up_to UType.uint8_t 2 &&& make_down_to UType.uint8_t 5 ∧
        (∀ i, ¬ ((make_up_to UType.uint8_t 2).testBit i = true ∧
          (make_down_to UType.uint8_t 5).testBit i = true)) ∧
        make_from_to UType.uint8_t 5 2 = 0 ∧
        make_from_to UType.uint8_t 5 2 = none_v UType.uint8_t) :=
  ⟨by decide, by decide, make_from_to_reversed UType.uint8_t 5 2 (by decide) (by decide)⟩

/-- C20: for every type `T` of width `W` and every `n` with `n + 1 < W`,
`up_to(n)` and `down_to(n + 1)` are `W`-bit complements of each other:
their OR is `all`, their AND is `none`; in particular `but_msb == up_to(W - 2)`
and `but_lsb == down_to(1)`. -/
theorem up_to_down_to_complement (T : UType) (n : Nat) (hn : n + 1 < bits T) :
    (∃ u d, up_to T n = some u ∧ down_to T (n + 1) = some d ∧
        u ||| d = all_v T ∧ u &&& d = none_v T ∧
        (∀ i, i < bits T → d.testBit i = !u.testBit i)) ∧
      up_to T (bits T - 2) = some (but_msb_v T) ∧
      down_to T 1 = some (but_lsb_v T) := by
  have hn0 : n < bits T := by omega
  have h8 : 8 ≤ bits T := by cases T <;> decide
  have hW2 : bits T - 2 < bits T := by omega
  have h1W : 1 < bits T := by omega
  refine ⟨⟨make_up_to T n, make_down_to T (n + 1), ?_, ?_, ?_, ?_, ?_⟩, ?_, ?_⟩
  · unfold up_to
    rw [bits_eq, if_pos hn0]
  · unfold down_to
    rw [bits_eq, if_pos hn]
  · apply Nat.eq_of_testBit_eq
    intro i
    rw [Nat.testBit_or, make_up_to_testBit, make_down_to_testBit T hn, all_v_eq,
      Nat.testBit_two_pow_sub_one, Bool.eq_iff_iff]
    simp only [Bool.or_eq_true, decide_eq_true_iff]
    omega
  · apply Nat.eq_of_testBit_eq
    intro i
    rw [Nat.testBit_and, make_up_to_testBit, make_down_to_testBit T hn, none_v_eq,
      Nat.zero_testBit, Bool.eq_iff_iff]
    simp only [Bool.and_eq_true, decide_eq_true_iff, Bool.false_eq_true, iff_false]
    omega
  · intro i hi
    rw [make_up_to_testBit, make_down_to_testBit T hn, Bool.eq_iff_iff, Bool.not_eq_true',
      decide_eq_true_iff, decide_eq_false_iff_not]
    omega
  · unfold up_to
    rw [bits_eq, if_pos hW2, make_up_to_eq T hW2, but_msb_v_eq]
    have e : bits T - 2 + 1 = bits T - 1 := by omega
    rw [e]
  · unfold down_to
    rw [bits_eq, if_pos h1W, make_down_to_eq T h1W, but_lsb_v_eq, Nat.pow_one]

theorem up_to_down_to_complement_witness :
    3 + 1 < bits UType.uint8_t ∧
      ((∃ u d, up_to UType.uint8_t 3 = some u ∧ down_to UType.uint8_t (3 + 1) = some d ∧
          u ||| d = all_v UType.uint8_t ∧ u &&& d = none_v UType.uint8_t ∧
          (∀ i, i < bits UType.uint8_t → d.testBit i = !u.testBit i)) ∧
        up_to UType.uint8_t (bits UType.uint8_t - 2) = some (but_msb_v UType.uint8_t) ∧
        down_to UType.uint8_t 1 = some (but_lsb_v UType.uint8_t)) :=
  ⟨by decide, up_to_down_to_complement UType.uint8_t 3 (by decide)⟩

end mask
